import Mathlib

/-!
Verification of the expmonkey branch/worktree consistency engine
(`src/expmonkey/__init__.py`) against its natural-language specification.

The Python source is shallowly embedded: the filesystem, the git worktree
registry, the local and remote ref namespaces and per-branch working-tree
status are collected in an explicit state record (`EmState`), every git
invocation the tool performs is a pure state transformer translated from
the corresponding method of `BaseRepository`, and the fallible checks
return `Except`.  Paths are the literal strings the source builds with
`os.path.join`.
-/

namespace Expmonkey

/-- `os.path.join(a, b)` for a relative second component: `a ++ "/" ++ b`. -/
def pjoin (a b : String) : String := a ++ "/" ++ b

/-- Models Python `branch.startswith('__')` (the reserved control-branch
naming convention): the first two characters are underscores. -/
def isControlName (b : String) : Prop := b.data.take 2 = ['_', '_']

instance (b : String) : Decidable (isControlName b) := by
  unfold isControlName; infer_instance

instance {α β : Type} [DecidableEq α] [DecidableEq β] :
    DecidableEq (Except α β) := fun
  | .error a, .error b =>
    if h : a = b then .isTrue (by rw [h]) else .isFalse (by simp [h])
  | .error _, .ok _ => .isFalse (by simp)
  | .ok _, .error _ => .isFalse (by simp)
  | .ok a, .ok b =>
    if h : a = b then .isTrue (by rw [h]) else .isFalse (by simp [h])

/-- First-match association-list lookup (the repository state is a finite
map represented as a list of pairs). -/
def alookup {β : Type} : List (String × β) → String → Option β
  | [], _ => none
  | (k', v) :: t, k => if k = k' then some v else alookup t k

theorem alookup_cons {β : Type} (k' : String) (v : β) (t : List (String × β))
    (k : String) :
    alookup ((k', v) :: t) k = if k = k' then some v else alookup t k := rfl

theorem alookup_filter_ne {β : Type} (l : List (String × β)) (k j : String)
    (h : k ≠ j) :
    alookup (l.filter (fun p => decide (p.1 ≠ j))) k = alookup l k := by
  induction l with
  | nil => rfl
  | cons hd tl ih =>
    by_cases hk : k = hd.1
    · subst hk
      have : decide (hd.1 ≠ j) = true := by simp [h]
      simp [List.filter, this, alookup]
    · by_cases hj : hd.1 = j
      · have : decide (hd.1 ≠ j) = false := by simp [hj]
        simp only [List.filter, this]
        rw [ih]
        obtain ⟨a, b⟩ := hd
        simp only [alookup, if_neg hk]
      · have : decide (hd.1 ≠ j) = true := by simp [hj]
        simp only [List.filter, this]
        obtain ⟨a, b⟩ := hd
        simp only [alookup, if_neg hk]
        exact ih

/-! ### The project-marker search (`_get_basedir`, C9)

A directory is modelled by its path components listed deepest-first, so the
parent directory (`os.path.dirname`) is the tail of the list and the
filesystem root is `[]` (in Python, the root is its own dirname, which is
the loop's exit condition).  `fs` is the set of existing paths;
`os.path.exists(os.path.join(p, '.em'))` is membership of `".em" :: p`. -/

/-- `_get_basedir`: walk parents upward from `p`; return the first directory
holding a `.em` entry, `none` for the source's fatal `_die('Project not
found, ...')` once the root has been examined.  The source's `while True`
loop strictly shortens the path each iteration, which is exactly the
structural recursion on the component list here, so the walk terminates. -/
def get_basedir (fs : List (List String)) : List String → Option (List String)
  | [] => if ([".em"] : List String) ∈ fs then some [] else none
  | c :: p => if (".em" :: c :: p) ∈ fs then some (c :: p) else get_basedir fs p

/-! ### Current-branch detection (`BaseRepository.get_current_branch`, C10)

`git rev-parse --abbrev-ref HEAD` prints the branch name, or the literal
string `HEAD` when the head is detached.  The method turns the latter into
`None`. -/

/-- `get_current_branch`, as a function of the text the backend printed. -/
def get_current_branch (revParseOut : String) : Option String :=
  if revParseOut = "HEAD" then none else some revParseOut

/-- The `src == '.'` resolution at the top of `cp`: replace the dot by the
current branch, dying with `Not in a branch, please specific branch name`
when `_get_branch()` yielded `None`. -/
def cp_resolve_src (src : String) (cur : Option String) : Except String String :=
  if src = "." then
    match cur with
    | none => .error "Not in a branch, please specific branch name"
    | some b => .ok b
  else .ok src

/-- The composition the `.` shorthand of `cp` actually runs: read the current
branch from the backend's `rev-parse --abbrev-ref HEAD` output, then resolve. -/
def cp_src_from_dot (revParseOut : String) : Except String String :=
  cp_resolve_src "." (get_current_branch revParseOut)

/-! ### The backend boundary (`BaseRepository.check_output`, C8)

One subprocess invocation is a pair of an exit status and the (decoded)
bytes it wrote to stdout.  The backend itself is the sequence of results of
the successive invocations a command performs, consumed front to back, so
the number of entries a call consumes is the number of times it ran the
backend. -/

/-- Exit status and decoded stdout of one backend (subprocess) invocation. -/
structure ProcResult where
  returncode : Int
  stdout : String
deriving DecidableEq, Repr

/-- The backend oracle: results of the successive invocations, in order. -/
structure Backend where
  responses : List ProcResult
deriving DecidableEq, Repr

/-- The message of the `RuntimeError` raised on a non-zero exit status:
`'Subprocess exits with non-zero return code {}: {}'.format(p.returncode,
' '.join(args))`. -/
def formatCmdError (code : Int) (args : List String) : String :=
  "Subprocess exits with non-zero return code " ++ toString code ++ ": " ++
    String.intercalate " " args

/-- `BaseRepository.check_output` (shared by both backend variants, the
pygit2-backed and the shell-backed repository classes): run the subprocess
once, raise on a non-zero return code, otherwise decode and strip the
output.  The returned `Backend` is the oracle after the single consumed
invocation. -/
def check_output (bk : Backend) (args : List String) :
    Except String String × Backend :=
  let r := bk.responses.headD ⟨1, ""⟩
  let bk' : Backend := ⟨bk.responses.tail⟩
  if r.returncode = 0 then (.ok r.stdout.trim, bk')
  else (.error (formatCmdError r.returncode args), bk')

/-- `t` occurs contiguously inside `s`. -/
def strContains (s t : String) : Prop := ∃ a b, s = a ++ t ++ b

/-! ### The four-namespace state

The on-disk state the tool orchestrates: the experiment directories, the
worktree registry, the local refs under `refs/heads/`, the branches the
remote knows, plus what the embedded git commands read from each checked
out tree (its current branch and how many status deltas `git status` would
report).  Commit ids are drawn from a counter `fresh`, and `parents`
records, for every commit the tool creates, its parent — i.e. the head the
branch had when `git commit` ran. -/

/-- One record of `git worktree list --porcelain` as `list_worktrees`
parses it: path, head commit and checked-out branch. -/
structure Worktree where
  path : String
  head : Nat
  branch : String
deriving DecidableEq, Repr

/-- The observable repository/filesystem state of one expmonkey project. -/
structure EmState where
  /-- The project root (`_get_basedir()`), an absolute path. -/
  basedir : String
  /-- The worktree registry (`git worktree list`). -/
  worktrees : List Worktree
  /-- `refs/heads/` — every local ref, control branches included. -/
  heads : List (String × Nat)
  /-- The branches the remote reports (`git ls-remote`), with their ids. -/
  remoteRefs : List (String × Nat)
  /-- The directories that exist on disk (`os.path.isdir`). -/
  dirs : List String
  /-- The paths `p` for which `p/.git` exists (`_is_git_repo`). -/
  gitDirs : List String
  /-- For each repository directory, its current branch
  (`get_current_branch` of the repository opened there; `none` = detached). -/
  curBranch : List (String × Option String)
  /-- Per branch, how many status deltas `git status` reports in its tree. -/
  pending : List (String × Nat)
  /-- Parent edges of the commits the tool created: (child, parent). -/
  parents : List (Nat × Nat)
  /-- The next unused commit id. -/
  fresh : Nat
deriving DecidableEq, Repr

/-- The convention path of branch `b`: `os.path.join(basedir, b)`. -/
def convPath (s : EmState) (b : String) : String := pjoin s.basedir b

/-- `list_local_branches`: the names under `refs/heads/`, control branches
(double-underscore names) excluded. -/
def localBranchNames (s : EmState) : List String :=
  (s.heads.map Prod.fst).filter (fun b => decide (¬ isControlName b))

/-- `list_worktree_branches`: the branch of every worktree record. -/
def worktreeBranchNames (s : EmState) : List String :=
  s.worktrees.map (fun w => w.branch)

/-- `list_remote_branches`: the branch names of `ls_remotes`. -/
def remoteBranchNames (s : EmState) : List String :=
  s.remoteRefs.map Prod.fst

/-- `_list_checked_out_branches`: the worktree records whose registered path
is exactly the convention path `os.path.join(basedir, branch)`. -/
def list_checked_out_branches (s : EmState) : List String :=
  (s.worktrees.filter (fun w => decide (w.path = convPath s w.branch))).map
    (fun w => w.branch)

/-- The current branch of the repository at path `p`
(`_get_repo(...)` + `get_current_branch`; `none` when detached). -/
def current_branch_at (s : EmState) (p : String) : Option String :=
  (alookup s.curBranch p).getD none

/-- A worktree record for `b` exists at the convention path (the
`found_in_worktree` flag of `_check_branch`). -/
def foundInWorktree (s : EmState) (b : String) : Prop :=
  ∃ w ∈ s.worktrees, w.branch = b ∧ w.path = convPath s b

instance (s : EmState) (b : String) : Decidable (foundInWorktree s b) := by
  unfold foundInWorktree; infer_instance

/-- A worktree record for `b` exists at some other path (the fatal
branch/path inconsistency of `_check_branch`). -/
def hasBadWorktree (s : EmState) (b : String) : Prop :=
  ∃ w ∈ s.worktrees, w.branch = b ∧ w.path ≠ convPath s b

instance (s : EmState) (b : String) : Decidable (hasBadWorktree s b) := by
  unfold hasBadWorktree; infer_instance

/-- The diagnostics `_check_branch`, `_cp` and friends can die with. -/
inductive CheckError
  /-- `Branch "{}" not found in worktree` -/
  | branchNotInWorktree
  /-- `Branch "{}" already exists in worktree` -/
  | branchAlreadyInWorktree
  /-- `Inconsistency between worktree branch and path, ...` -/
  | worktreePathInconsistency
  /-- `Branch "{}" not found in local branches` -/
  | branchNotFound
  /-- `Branch "{}" already exists in local branches` -/
  | branchAlreadyExists
  /-- `Inconsistency between worktree and local branch, ...` -/
  | worktreeLocalBranchMismatch
  /-- `Inconsistency between worktree and local directory, ...` -/
  | worktreeDirectoryMissing
  /-- `Inconsistency between worktree and branch in directory, ...` -/
  | worktreeBranchMismatch
  /-- `Directory "{}" already exists` -/
  | directoryAlreadyExists
  /-- `_cp`'s final `Branch "{}" not found` -/
  | branchNotFoundAnywhere
deriving DecidableEq, Repr

/-- `_check_branch(branch, in_worktree, in_branch)`: the consistency
checker, with its checks in the source's order.  `some true` / `some false`
/ `none` are the tri-state require-present / require-absent / don't-care
expectations, and `.error` is the source's `_die`. -/
def check_branch (s : EmState) (branch : String) (iw ib : Option Bool) :
    Except CheckError Unit :=
  if iw = some true ∧ ¬ foundInWorktree s branch then
    .error .branchNotInWorktree
  else if iw = some false ∧ foundInWorktree s branch then
    .error .branchAlreadyInWorktree
  else if hasBadWorktree s branch then
    .error .worktreePathInconsistency
  else if ib = some true ∧ branch ∉ localBranchNames s then
    .error .branchNotFound
  else if ib = some false ∧ branch ∈ localBranchNames s then
    .error .branchAlreadyExists
  else if foundInWorktree s branch then
    if branch ∉ localBranchNames s then
      .error .worktreeLocalBranchMismatch
    else if convPath s branch ∉ s.gitDirs then
      .error .worktreeDirectoryMissing
    else if current_branch_at s (convPath s branch) ≠ some branch then
      .error .worktreeBranchMismatch
    else .ok ()
  else if iw = some false ∧ convPath s branch ∈ s.gitDirs then
    .error .directoryAlreadyExists
  else .ok ()

/-! ### The git state transformers the branch operations call -/

/-- `create_branch(branch, start_point)` with the start point already
resolved to a commit id: add a ref under `refs/heads/`. -/
def create_branch (s : EmState) (b : String) (startPoint : Nat) : EmState :=
  { s with heads := (b, startPoint) :: s.heads }

/-- `delete_branch(branch)`: `git branch -D` drops the ref. -/
def delete_branch (s : EmState) (b : String) : EmState :=
  { s with heads := s.heads.filter (fun p => decide (p.1 ≠ b)) }

/-- `fetch(['refs/heads/src:refs/heads/dst'])`: point the local ref `dst`
at the remote's `src` head. -/
def fetch_branch (s : EmState) (src dst : String) : EmState :=
  { s with heads :=
      (dst, (alookup s.remoteRefs src).getD 0) ::
        s.heads.filter (fun p => decide (p.1 ≠ dst)) }

/-- `rev_parse('refs/heads/<b>')`: the id the local ref `b` points at. -/
def headOf (s : EmState) (b : String) : Nat := (alookup s.heads b).getD 0

/-- The number of deltas `status()` reports in the working tree of `b`. -/
def pendingOf (s : EmState) (b : String) : Nat :=
  (alookup s.pending b).getD 0

/-- `add_worktree(path, branch)`: register a worktree for `branch` at
`path` and materialise its directory (a fresh clean checkout of the
branch's head, so its current branch is `branch`). -/
def add_worktree (s : EmState) (p : String) (b : String) : EmState :=
  { s with
    worktrees := ⟨p, headOf s b, b⟩ :: s.worktrees,
    dirs := p :: s.dirs,
    gitDirs := p :: s.gitDirs,
    curBranch := (p, some b) :: s.curBranch }

/-- `BaseRepository.commit` run inside the worktree of branch `b`:
`git commit --allow-empty` always succeeds and returns the new head id.
The new commit's parent is the branch's previous head, the branch ref and
the worktree head advance, and the working tree becomes clean. -/
def commitOp (s : EmState) (b : String) : EmState × Nat :=
  let cid := s.fresh
  ({ s with
      heads := (b, cid) :: s.heads.filter (fun p => decide (p.1 ≠ b)),
      worktrees := s.worktrees.map
        (fun w => if w.branch = b then { w with head := cid } else w),
      pending := (b, 0) :: s.pending.filter (fun p => decide (p.1 ≠ b)),
      parents := (cid, headOf s b) :: s.parents,
      fresh := s.fresh + 1 }, cid)

/-- `_commit(branch)`: read the head id, stage everything, and commit only
when `status()` reports at least one delta — otherwise return the existing
head id untouched. -/
def em_commit (s : EmState) (b : String) : EmState × Nat :=
  if 0 < pendingOf s b then commitOp s b else (s, headOf s b)

/-- The tail of `_cp`: `add_worktree(os.path.join(basedir, dst), dst)`,
then — unless `src == dst` (a plain checkout) — the allow-empty provenance
commit `Checkout "src" to "dst"` made inside the new worktree. -/
def cp_finish (s : EmState) (src dst : String) : EmState :=
  let s2 := add_worktree s (convPath s dst) dst
  if src = dst then s2 else (commitOp s2 dst).1

/-- `_cp(src, dst)`: the copy/checkout workflow.  The three source states
are tried in the source's order (checked out, local, remote), each guarded
by the consistency checks the source performs, and `.error` is `_die`. -/
def cp_op (s : EmState) (src dst : String) : Except CheckError EmState :=
  if src ∈ list_checked_out_branches s then
    match check_branch s src (some true) (some true) with
    | .error e => .error e
    | .ok _ =>
      match check_branch s dst (some false) (some false) with
      | .error e => .error e
      | .ok _ =>
        let sc := em_commit s src
        .ok (cp_finish (create_branch sc.1 dst sc.2) src dst)
  else if src ∈ localBranchNames s then
    match check_branch s src (some false) (some true) with
    | .error e => .error e
    | .ok _ =>
      if src = dst then .ok (cp_finish s src dst)
      else
        match check_branch s dst (some false) (some false) with
        | .error e => .error e
        | .ok _ =>
          .ok (cp_finish (create_branch s dst (headOf s src)) src dst)
  else if src ∈ remoteBranchNames s then
    match check_branch s src (some false) (some false) with
    | .error e => .error e
    | .ok _ =>
      match check_branch s dst (some false) (some false) with
      | .error e => .error e
      | .ok _ => .ok (cp_finish (fetch_branch s src dst) src dst)
  else .error .branchNotFoundAnywhere

/-! ### `rm` -/

/-- What `rm` reported removing: the experiment directory, the worktree
registration, the local branch ref. -/
structure RmReport where
  dir : Bool
  worktree : Bool
  branch : Bool
deriving DecidableEq, Repr

/-- `rm` prints `Branch "{}" not removed` exactly when none of the three
removals happened. -/
def removedAny (r : RmReport) : Bool := r.dir || r.worktree || r.branch

/-- `shutil.rmtree(p)`: the directory, its repository marker and its
repository handle are gone. -/
def remove_dir (s : EmState) (p : String) : EmState :=
  { s with
    dirs := s.dirs.filter (fun q => decide (q ≠ p)),
    gitDirs := s.gitDirs.filter (fun q => decide (q ≠ p)),
    curBranch := s.curBranch.filter (fun e => decide (e.1 ≠ p)) }

/-- `prune_worktree`: `git worktree prune` drops every registration whose
directory no longer exists. -/
def prune_worktrees (s : EmState) : EmState :=
  { s with worktrees := s.worktrees.filter (fun w => decide (w.path ∈ s.dirs)) }

/-- `delete_worktree(branch)`: `rmtree` the directory of every worktree
registered for `branch`, then prune. -/
def delete_worktree (s : EmState) (b : String) : EmState :=
  let victims := (s.worktrees.filter (fun w => decide (w.branch = b))).map
    (fun w => w.path)
  let s1 := { s with
    dirs := s.dirs.filter (fun q => decide (q ∉ victims)),
    gitDirs := s.gitDirs.filter (fun q => decide (q ∉ victims)),
    curBranch := s.curBranch.filter (fun e => decide (e.1 ∉ victims)) }
  prune_worktrees s1

/-- The mutation sequence of `mv` (the rename operation, which deletes the
source with the same `delete_worktree`/`delete_branch` calls `rm` uses)
once its two guards have passed: commit the source implicitly, create the
destination branch at the returned id, open its worktree, delete the
source's worktree and branch, then record the allow-empty provenance
commit `Rename "src" to "dst"` inside the destination worktree
(`_commit_after_rename`). -/
def mv_apply (s : EmState) (src dst : String) : EmState :=
  let sc := em_commit s src
  let s1 := create_branch sc.1 dst sc.2
  let s2 := add_worktree s1 (convPath s1 dst) dst
  let s3 := delete_worktree s2 src
  let s4 := delete_branch s3 src
  (commitOp s4 dst).1

/-- `mv(src, dst)`: the rename workflow (after the `.` resolution and the
leading-character asserts): guard the checked-out source and the absent
destination, then apply the mutation sequence; `.error` is `_die`. -/
def mv_op (s : EmState) (src dst : String) : Except CheckError EmState :=
  match check_branch s src (some true) (some true) with
  | .error e => .error e
  | .ok _ =>
    match check_branch s dst (some false) (some false) with
    | .error e => .error e
    | .ok _ => .ok (mv_apply s src dst)

/-- `rm`'s first removal: `shutil.rmtree` the experiment directory when
`os.path.isdir(os.path.join(basedir, branch))`. -/
def rm_step1 (s : EmState) (b : String) : EmState :=
  if convPath s b ∈ s.dirs then remove_dir s (convPath s b) else s

/-- `rm`'s second removal: `delete_worktree` when the branch is among the
registered worktree branches. -/
def rm_step2 (s : EmState) (b : String) : EmState :=
  if b ∈ worktreeBranchNames s then delete_worktree s b else s

/-- `rm`'s third removal: `delete_branch` when the branch is among the
local branches. -/
def rm_step3 (s : EmState) (b : String) : EmState :=
  if b ∈ localBranchNames s then delete_branch s b else s

/-- The removal sequence of `rm` (after its confirmation prompt): delete
the experiment directory if it exists, the worktree registration if
present, the local branch ref if present — each namespace independently,
so a partial match is not an error — and report which removals ran, each
guard evaluated on the state its step sees, as in the source. -/
def rm_op (s : EmState) (b : String) : EmState × RmReport :=
  (rm_step3 (rm_step2 (rm_step1 s b) b) b,
    ⟨decide (convPath s b ∈ s.dirs),
     decide (b ∈ worktreeBranchNames (rm_step1 s b)),
     decide (b ∈ localBranchNames (rm_step2 (rm_step1 s b) b))⟩)

/-- The four observable states of §4.4's state machine. -/
inductive BState
  | checkedOut
  | localOnly
  | remoteOnly
  | absent
deriving DecidableEq, Repr

/-- Classify a branch name into the spec's four observable states. -/
def branch_state (s : EmState) (b : String) : BState :=
  if b ∈ list_checked_out_branches s then .checkedOut
  else if b ∈ localBranchNames s then .localOnly
  else if b ∈ remoteBranchNames s then .remoteOnly
  else .absent

/-! ### Concrete states used by counterexamples and witnesses -/

/-- Branch `a` checked out at `r/a`, consistent, with a clean working tree
(zero status deltas); every other name absent. -/
def exClean : EmState :=
  { basedir := "r"
    worktrees := [⟨"r/a", 5, "a"⟩]
    heads := [("a", 5)]
    remoteRefs := []
    dirs := ["r/a"]
    gitDirs := ["r/a"]
    curBranch := [("r/a", some "a")]
    pending := [("a", 0)]
    parents := []
    fresh := 6 }

/-- Branch `a` checked out at `r/a`, consistent, with one uncommitted
status delta; every other name absent. -/
def exDirty : EmState :=
  { basedir := "r"
    worktrees := [⟨"r/a", 5, "a"⟩]
    heads := [("a", 5)]
    remoteRefs := []
    dirs := ["r/a"]
    gitDirs := ["r/a"]
    curBranch := [("r/a", some "a")]
    pending := [("a", 1)]
    parents := []
    fresh := 6 }

/-- A worktree record for `b` registered at `elsewhere`, not at the
convention path `r/b`; nothing else. -/
def exBadPath : EmState :=
  { basedir := "r"
    worktrees := [⟨"elsewhere", 5, "b"⟩]
    heads := [("b", 5)]
    remoteRefs := []
    dirs := ["elsewhere"]
    gitDirs := ["elsewhere"]
    curBranch := [("elsewhere", some "b")]
    pending := []
    parents := []
    fresh := 6 }

/-- A worktree record for `d` at the convention path `r/d`, the directory a
valid repository, but the repository there has branch `e` checked out — and
`d` is additionally missing from the local branches. -/
def exCorrupt : EmState :=
  { basedir := "r"
    worktrees := [⟨"r/d", 5, "d"⟩]
    heads := []
    remoteRefs := []
    dirs := ["r/d"]
    gitDirs := ["r/d"]
    curBranch := [("r/d", some "e")]
    pending := []
    parents := []
    fresh := 6 }

/-- As `exCorrupt`, but `d` is present in the local branches (the single
corruption of the spec's scenario). -/
def exCorrupt2 : EmState :=
  { basedir := "r"
    worktrees := [⟨"r/d", 5, "d"⟩]
    heads := [("d", 5)]
    remoteRefs := []
    dirs := ["r/d"]
    gitDirs := ["r/d"]
    curBranch := [("r/d", some "e")]
    pending := []
    parents := []
    fresh := 6 }

/-- A plain directory (no `.git` inside) already sitting at the convention
path `r/b` of the otherwise absent branch `b`. -/
def exStrayDir : EmState :=
  { basedir := "r"
    worktrees := []
    heads := []
    remoteRefs := []
    dirs := ["r/b"]
    gitDirs := []
    curBranch := []
    pending := []
    parents := []
    fresh := 6 }

/-- A git repository directory (with `.git`) at the convention path `r/b`
of the otherwise absent branch `b`. -/
def exStrayGit : EmState :=
  { basedir := "r"
    worktrees := []
    heads := []
    remoteRefs := []
    dirs := ["r/b"]
    gitDirs := ["r/b"]
    curBranch := []
    pending := []
    parents := []
    fresh := 6 }

/-! ## Claim theorems -/

/-- C9: the project-marker search terminates (it is the structural
recursion on the component list, each loop iteration strictly shortening
the path), and it is correct: when some ancestor (the starting directory
included) holds a `.em` entry, the result is the nearest such ancestor —
every marker-bearing ancestor is an ancestor of (or equal to) the returned
one — and when none does, the walk reaches the filesystem root and exits
with the project-not-found diagnostic (`none`). -/
theorem get_basedir_terminating_correct (fs : List (List String))
    (p : List String) :
    match get_basedir fs p with
    | none => ∀ q, q <:+ p → (".em" :: q) ∉ fs
    | some r =>
        r <:+ p ∧ (".em" :: r) ∈ fs ∧
          ∀ q, q <:+ p → (".em" :: q) ∈ fs → q <:+ r := by
  induction p with
  | nil =>
    by_cases h : ([".em"] : List String) ∈ fs
    · simp only [get_basedir, if_pos h]
      refine ⟨List.suffix_refl _, h, ?_⟩
      intro q hq _
      exact hq
    · simp only [get_basedir, if_neg h]
      intro q hq
      rw [List.suffix_nil.mp hq]
      exact h
  | cons c p ih =>
    by_cases h : (".em" :: c :: p) ∈ fs
    · simp only [get_basedir, if_pos h]
      exact ⟨List.suffix_refl _, h, fun q hq _ => hq⟩
    · simp only [get_basedir, if_neg h]
      cases hg : get_basedir fs p with
      | none =>
        rw [hg] at ih
        intro q hq
        rcases List.suffix_cons_iff.mp hq with rfl | hq'
        · exact h
        · exact ih q hq'
      | some r =>
        rw [hg] at ih
        obtain ⟨h1, h2, h3⟩ := ih
        refine ⟨h1.trans (List.suffix_cons c p), h2, ?_⟩
        intro q hq hmem
        rcases List.suffix_cons_iff.mp hq with rfl | hq'
        · exact absurd hmem h
        · exact h3 q hq' hmem

/-- C10: `get_current_branch` returns `none` exactly when `git rev-parse
--abbrev-ref HEAD` printed the literal `HEAD` (a detached head), and the
`.` shorthand of `cp` turns that `none` into the fatal `Not in a branch`
diagnostic instead of operating on the detached head, while a real branch
name is passed through. -/
theorem get_current_branch_detached_spec (r : String) :
    (get_current_branch r = none ↔ r = "HEAD") ∧
    (cp_src_from_dot r = .error "Not in a branch, please specific branch name"
      ↔ r = "HEAD") ∧
    (cp_src_from_dot r = .ok r ↔ ¬ r = "HEAD") := by
  by_cases h : r = "HEAD" <;>
    simp [get_current_branch, cp_src_from_dot, cp_resolve_src, h]

/-- C8: the single backend entry point both repository variants inherit
consumes exactly one backend invocation whatever the outcome (no retry is
ever attempted), turns a non-zero exit status into an error whose message
carries both the exit code and the invoked command, and returns the
decoded, whitespace-trimmed output of a successful invocation. -/
theorem check_output_spec (bk : Backend) (args : List String) :
    ((check_output bk args).2.responses = bk.responses.tail) ∧
    ((bk.responses.headD ⟨1, ""⟩).returncode = 0 →
      (check_output bk args).1 = .ok (bk.responses.headD ⟨1, ""⟩).stdout.trim) ∧
    ((bk.responses.headD ⟨1, ""⟩).returncode ≠ 0 →
      ∃ msg, (check_output bk args).1 = .error msg ∧
        strContains msg (toString (bk.responses.headD ⟨1, ""⟩).returncode) ∧
        strContains msg (String.intercalate " " args)) := by
  have hunf : check_output bk args =
      (if (bk.responses.headD ⟨1, ""⟩).returncode = 0 then
        .ok (bk.responses.headD ⟨1, ""⟩).stdout.trim
      else .error (formatCmdError (bk.responses.headD ⟨1, ""⟩).returncode args),
      ⟨bk.responses.tail⟩) := by
    unfold check_output
    dsimp only
    split <;> rfl
  refine ⟨?_, ?_, ?_⟩
  · rw [hunf]
  · intro h
    rw [hunf, if_pos h]
  · intro h
    refine ⟨formatCmdError (bk.responses.headD ⟨1, ""⟩).returncode args,
      by rw [hunf, if_neg h], ?_, ?_⟩
    · exact ⟨"Subprocess exits with non-zero return code ",
        ": " ++ String.intercalate " " args, by
          simp only [formatCmdError, String.append_assoc]⟩
    · exact ⟨"Subprocess exits with non-zero return code " ++
        toString (bk.responses.headD ⟨1, ""⟩).returncode ++ ": ", "", by
          simp only [formatCmdError, String.append_assoc, String.append_empty]⟩

/-- C8 witness: a failing invocation with exit code 2 of `git st`. -/
theorem check_output_spec_witness :
    ∃ msg, (check_output ⟨[⟨2, "x"⟩]⟩ ["git", "st"]).1 = .error msg ∧
      strContains msg (toString (2 : Int)) ∧
      strContains msg (String.intercalate " " ["git", "st"]) :=
  (check_output_spec ⟨[⟨2, "x"⟩]⟩ ["git", "st"]).2.2 (by decide)

/-- C7: `_list_checked_out_branches` returns exactly the branch names of
worktree records registered at their convention path
`os.path.join(basedir, branch)`: a name is in the result iff a record for
it exists whose path matches the convention exactly.  It is not simply the
set of all worktree branches: a state exists with a worktree branch that is
not listed. -/
theorem list_checked_out_branches_spec (s : EmState) (b : String) :
    (b ∈ list_checked_out_branches s ↔
      ∃ w ∈ s.worktrees, w.branch = b ∧ w.path = convPath s b) ∧
    (∃ t : EmState, ∃ x, x ∈ worktreeBranchNames t ∧
      x ∉ list_checked_out_branches t) := by
  constructor
  · simp only [list_checked_out_branches, List.mem_map, List.mem_filter,
      decide_eq_true_eq]
    constructor
    · rintro ⟨w, ⟨hw, hp⟩, rfl⟩
      exact ⟨w, hw, rfl, hp⟩
    · rintro ⟨w, hw, rfl, hp⟩
      exact ⟨w, ⟨hw, hp⟩, rfl⟩
  · refine ⟨exBadPath, "b", by decide, by decide⟩

/-- C2 counterexample: a worktree record for `b` exists at a path other
than the convention path, yet `checkBranch(b, expectInWorktree := true,
don't-care)` dies with the `not found in worktree` diagnostic, not with the
worktree/path inconsistency diagnostic — the source applies the
expectation check (line 325) before the inconsistency scan (line 330). -/
theorem check_branch_badpath_cex :
    hasBadWorktree exBadPath "b" ∧
    check_branch exBadPath "b" (some true) none =
      .error .branchNotInWorktree ∧
    check_branch exBadPath "b" (some true) none ≠
      .error .worktreePathInconsistency := by decide

/-- C2 (amended): if a worktree record for `B` exists at a path different
from the convention path, `checkBranch(B, iw, ib)` always terminates with a
fatal diagnostic, and that diagnostic is the worktree/path inconsistency
one whenever the worktree-expectation gate does not fire first (so always
when `iw` is don't-care); with `iw = require-present` and no record at the
convention path the earlier `not found in worktree` error fires instead. -/
theorem check_branch_inconsistent_path_fatal (s : EmState) (b : String)
    (iw ib : Option Bool) (h : hasBadWorktree s b) :
    (∃ e, check_branch s b iw ib = .error e) ∧
    (iw = some true → ¬ foundInWorktree s b →
      check_branch s b iw ib = .error .branchNotInWorktree) ∧
    ((iw = some true → foundInWorktree s b) →
      (iw = some false → ¬ foundInWorktree s b) →
      check_branch s b iw ib = .error .worktreePathInconsistency) := by
  by_cases c1 : iw = some true ∧ ¬ foundInWorktree s b
  · have he : check_branch s b iw ib = .error .branchNotInWorktree := by
      unfold check_branch
      rw [if_pos c1]
    exact ⟨⟨_, he⟩, fun _ _ => he, fun hf _ => absurd (hf c1.1) c1.2⟩
  · by_cases c2 : iw = some false ∧ foundInWorktree s b
    · have he : check_branch s b iw ib = .error .branchAlreadyInWorktree := by
        unfold check_branch
        rw [if_neg c1, if_pos c2]
      refine ⟨⟨_, he⟩, ?_, ?_⟩
      · intro ht _
        rw [ht] at c2
        exact absurd c2.1 (by simp)
      · intro _ hnf
        exact absurd c2.2 (hnf c2.1)
    · have he : check_branch s b iw ib = .error .worktreePathInconsistency := by
        unfold check_branch
        rw [if_neg c1, if_neg c2, if_pos h]
      exact ⟨⟨_, he⟩, fun ht hnf => absurd c1 (by simp [ht, hnf]),
        fun _ _ => he⟩

/-- C2 witness: with the don't-care expectations the mismatched-path record
of `exBadPath` is reported as the worktree/path inconsistency. -/
theorem check_branch_inconsistent_path_fatal_witness :
    check_branch exBadPath "b" none none =
      .error .worktreePathInconsistency :=
  (check_branch_inconsistent_path_fatal exBadPath "b" none none
    (by decide)).2.2 (by decide) (by decide)

/-- C3 counterexample: the claim's hypotheses hold at `exCorrupt` (record
for `d` at the convention path, the directory a valid repository, its
current branch `e ≠ d`), yet `checkBranch(d, true, don't-care)` fails with
the worktree/local-branch mismatch diagnostic — `d` is missing from the
local branches and that check (line 343) precedes the current-branch check
(line 351) — not with the worktree-branch mismatch diagnostic. -/
theorem check_branch_mismatch_cex :
    foundInWorktree exCorrupt "d" ∧
    convPath exCorrupt "d" ∈ exCorrupt.gitDirs ∧
    current_branch_at exCorrupt (convPath exCorrupt "d") = some "e" ∧
    check_branch exCorrupt "d" (some true) none =
      .error .worktreeLocalBranchMismatch ∧
    check_branch exCorrupt "d" (some true) none ≠
      .error .worktreeBranchMismatch := by decide

/-- C3 (amended): with a worktree record for `d` at the convention path, a
valid repository there whose current branch is not `d`, `checkBranch(d,
expectInWorktree := true, _)` never succeeds silently; and the diagnostic
is exactly `WorktreeBranchMismatch` provided `d` is also present in the
local branches, no record for `d` sits at any other path, and the
local-branch expectation is not require-absent (otherwise one of the
earlier checks reports its own diagnostic first). -/
theorem check_branch_wrong_branch_in_dir (s : EmState) (d : String)
    (ib : Option Bool)
    (hconv : foundInWorktree s d)
    (hgit : convPath s d ∈ s.gitDirs)
    (hcur : current_branch_at s (convPath s d) ≠ some d) :
    (∃ e, check_branch s d (some true) ib = .error e) ∧
    (d ∈ localBranchNames s → ¬ hasBadWorktree s d → ib ≠ some false →
      check_branch s d (some true) ib = .error .worktreeBranchMismatch) := by
  have c1 : ¬ ((some true : Option Bool) = some true ∧
      ¬ foundInWorktree s d) := by simp [hconv]
  have c2 : ¬ ((some true : Option Bool) = some false ∧
      foundInWorktree s d) := by simp
  by_cases hbad : hasBadWorktree s d
  · have he : check_branch s d (some true) ib =
        .error .worktreePathInconsistency := by
      unfold check_branch
      rw [if_neg c1, if_neg c2, if_pos hbad]
    exact ⟨⟨_, he⟩, fun _ hnb _ => absurd hbad hnb⟩
  · by_cases c4 : ib = some true ∧ d ∉ localBranchNames s
    · have he : check_branch s d (some true) ib = .error .branchNotFound := by
        unfold check_branch
        rw [if_neg c1, if_neg c2, if_neg hbad, if_pos c4]
      exact ⟨⟨_, he⟩, fun hl _ _ => absurd hl c4.2⟩
    · by_cases c5 : ib = some false ∧ d ∈ localBranchNames s
      · have he : check_branch s d (some true) ib =
            .error .branchAlreadyExists := by
          unfold check_branch
          rw [if_neg c1, if_neg c2, if_neg hbad, if_neg c4, if_pos c5]
        exact ⟨⟨_, he⟩, fun _ _ hnib => absurd c5.1 hnib⟩
      · by_cases hl : d ∈ localBranchNames s
        · have he : check_branch s d (some true) ib =
              .error .worktreeBranchMismatch := by
            unfold check_branch
            rw [if_neg c1, if_neg c2, if_neg hbad, if_neg c4, if_neg c5,
              if_pos hconv, if_neg (by simp [hl]),
              if_neg (by simp [hgit]), if_pos hcur]
          exact ⟨⟨_, he⟩, fun _ _ _ => he⟩
        · have he : check_branch s d (some true) ib =
              .error .worktreeLocalBranchMismatch := by
            unfold check_branch
            rw [if_neg c1, if_neg c2, if_neg hbad, if_neg c4, if_neg c5,
              if_pos hconv, if_pos hl]
          exact ⟨⟨_, he⟩, fun hl2 _ _ => absurd hl2 hl⟩

/-- C3 witness: at `exCorrupt2` (where `d` is a local branch) the amended
claim reports exactly the worktree-branch mismatch. -/
theorem check_branch_wrong_branch_in_dir_witness :
    check_branch exCorrupt2 "d" (some true) none =
      .error .worktreeBranchMismatch :=
  (check_branch_wrong_branch_in_dir exCorrupt2 "d" none (by decide)
    (by decide) (by decide)).2 (by decide) (by decide) (by decide)

/-- C4 counterexample: a plain directory (no `.git` entry) sits at the
convention path of the otherwise absent branch `b`, and `checkBranch(b,
expectInWorktree := false, don't-care)` succeeds — the source only tests
`_is_git_repo`, i.e. the existence of `<path>/.git`, so a stray
marker-less directory is not reported as `DirectoryAlreadyExists`. -/
theorem check_branch_stray_dir_cex :
    convPath exStrayDir "b" ∈ exStrayDir.dirs ∧
    (∀ w ∈ exStrayDir.worktrees, w.branch ≠ "b") ∧
    check_branch exStrayDir "b" (some false) none = .ok () := by decide

/-- C4 (amended): for a branch `b` with no worktree record at all,
`checkBranch(b, expectInWorktree := false, ib)` — with the local-branch
expectation itself satisfied — fails with `DirectoryAlreadyExists` exactly
when a git repository directory (a directory containing a `.git` entry)
already exists at the convention path; a plain directory without the
repository marker is not detected. -/
theorem check_branch_stray_git_dir (s : EmState) (b : String)
    (ib : Option Bool)
    (hnorec : ∀ w ∈ s.worktrees, w.branch ≠ b)
    (hgit : convPath s b ∈ s.gitDirs)
    (hib1 : ib = some true → b ∈ localBranchNames s)
    (hib2 : ib = some false → b ∉ localBranchNames s) :
    check_branch s b (some false) ib = .error .directoryAlreadyExists := by
  have hnf : ¬ foundInWorktree s b := by
    rintro ⟨w, hw, rfl, -⟩
    exact hnorec w hw rfl
  have hnb : ¬ hasBadWorktree s b := by
    rintro ⟨w, hw, rfl, -⟩
    exact hnorec w hw rfl
  unfold check_branch
  rw [if_neg (by simp), if_neg (by simp [hnf]), if_neg hnb,
    if_neg (fun h => h.2 (hib1 h.1)), if_neg (fun h => (hib2 h.1) h.2),
    if_neg hnf, if_pos (by simp [hgit])]

/-- C4 witness: the `.git`-marked stray directory of `exStrayGit` is
reported. -/
theorem check_branch_stray_git_dir_witness :
    check_branch exStrayGit "b" (some false) none =
      .error .directoryAlreadyExists :=
  check_branch_stray_git_dir exStrayGit "b" none (by decide) (by decide)
    (by decide) (by decide)

/-! ### Helper lemmas about the removal steps -/

theorem localBranchNames_congr {t u : EmState} (h : t.heads = u.heads) :
    localBranchNames t = localBranchNames u := by
  unfold localBranchNames
  rw [h]

theorem worktreeBranchNames_congr {t u : EmState}
    (h : t.worktrees = u.worktrees) :
    worktreeBranchNames t = worktreeBranchNames u := by
  unfold worktreeBranchNames
  rw [h]

theorem convPath_congr {t u : EmState} (h : t.basedir = u.basedir)
    (b : String) : convPath t b = convPath u b := by
  unfold convPath pjoin
  rw [h]

theorem rm_step1_basedir (s : EmState) (b : String) :
    (rm_step1 s b).basedir = s.basedir := by
  unfold rm_step1
  split <;> rfl

theorem rm_step2_basedir (s : EmState) (b : String) :
    (rm_step2 s b).basedir = s.basedir := by
  unfold rm_step2 delete_worktree prune_worktrees
  split <;> rfl

theorem rm_step3_basedir (s : EmState) (b : String) :
    (rm_step3 s b).basedir = s.basedir := by
  unfold rm_step3
  split <;> rfl

theorem rm_step1_worktrees (s : EmState) (b : String) :
    (rm_step1 s b).worktrees = s.worktrees := by
  unfold rm_step1
  split <;> rfl

theorem rm_step1_heads (s : EmState) (b : String) :
    (rm_step1 s b).heads = s.heads := by
  unfold rm_step1
  split <;> rfl

theorem rm_step2_heads (s : EmState) (b : String) :
    (rm_step2 s b).heads = s.heads := by
  unfold rm_step2 delete_worktree prune_worktrees
  split <;> rfl

theorem rm_step3_dirs (s : EmState) (b : String) :
    (rm_step3 s b).dirs = s.dirs := by
  unfold rm_step3
  split <;> rfl

theorem rm_step3_worktrees (s : EmState) (b : String) :
    (rm_step3 s b).worktrees = s.worktrees := by
  unfold rm_step3
  split <;> rfl

/-- After `delete_worktree s b` no worktree record for `b` remains: the
directories of all its records were removed and the prune drops every
record whose directory is gone. -/
theorem delete_worktree_removes (s : EmState) (b : String) :
    b ∉ worktreeBranchNames (delete_worktree s b) := by
  intro hmem
  unfold worktreeBranchNames delete_worktree prune_worktrees at hmem
  dsimp only at hmem
  obtain ⟨w, hw, hb⟩ := List.mem_map.mp hmem
  rw [List.mem_filter, decide_eq_true_eq, List.mem_filter,
    decide_eq_true_eq] at hw
  exact hw.2.2 (List.mem_map.mpr
    ⟨w, List.mem_filter.mpr ⟨hw.1, by simp [hb]⟩, rfl⟩)

/-- `delete_worktree` only ever removes directories. -/
theorem delete_worktree_dirs_subset (s : EmState) (b : String) {q : String}
    (h : q ∈ (delete_worktree s b).dirs) : q ∈ s.dirs := by
  unfold delete_worktree prune_worktrees at h
  simp only [List.mem_filter] at h
  exact h.1

/-- After `delete_branch s b` the ref `b` is gone from the local
branches. -/
theorem delete_branch_removes (s : EmState) (b : String) :
    b ∉ localBranchNames (delete_branch s b) := by
  intro hmem
  unfold localBranchNames delete_branch at hmem
  simp only [List.mem_filter, List.mem_map, decide_eq_true_eq] at hmem
  obtain ⟨⟨p, hp, rfl⟩, -⟩ := hmem
  exact hp.2 rfl

/-- The final state of `rm` holds none of the three artifacts of `b`, and
the project root is untouched. -/
theorem rm_op_post (s : EmState) (b : String) :
    (rm_op s b).1.basedir = s.basedir ∧
    convPath s b ∉ (rm_op s b).1.dirs ∧
    b ∉ worktreeBranchNames (rm_op s b).1 ∧
    b ∉ localBranchNames (rm_op s b).1 := by
  refine ⟨?_, ?_, ?_, ?_⟩
  · rw [rm_op]
    rw [rm_step3_basedir, rm_step2_basedir, rm_step1_basedir]
  · rw [rm_op]
    rw [rm_step3_dirs]
    intro hmem
    have h1 : convPath s b ∉ (rm_step1 s b).dirs := by
      unfold rm_step1
      split
      · simp [remove_dir, List.mem_filter]
      · assumption
    unfold rm_step2 at hmem
    split at hmem
    · exact h1 (delete_worktree_dirs_subset _ _ hmem)
    · exact h1 hmem
  · rw [rm_op]
    rw [worktreeBranchNames_congr (rm_step3_worktrees _ _)]
    unfold rm_step2
    split
    · exact delete_worktree_removes _ _
    · assumption
  · rw [rm_op]
    unfold rm_step3
    split
    · exact delete_branch_removes _ _
    · assumption

/-- C5: `rm` cleans each of the three namespaces — experiment directory,
worktree registration, local branch ref — independently: the report flag
of each is exactly its presence beforehand (a partial match is not an
error), `Branch not removed` is printed exactly when all three were
absent, and running `rm` twice in a row never fails — the second run
changes nothing and removes nothing. -/
theorem rm_independent_idempotent (s : EmState) (b : String) :
    ((rm_op s b).2.dir = decide (convPath s b ∈ s.dirs) ∧
     (rm_op s b).2.worktree = decide (b ∈ worktreeBranchNames s) ∧
     (rm_op s b).2.branch = decide (b ∈ localBranchNames s)) ∧
    (removedAny (rm_op s b).2 = false ↔
      convPath s b ∉ s.dirs ∧ b ∉ worktreeBranchNames s ∧
        b ∉ localBranchNames s) ∧
    (rm_op (rm_op s b).1 b).1 = (rm_op s b).1 ∧
    (rm_op (rm_op s b).1 b).2 = ⟨false, false, false⟩ := by
  have hr : (rm_op s b).2 = ⟨decide (convPath s b ∈ s.dirs),
      decide (b ∈ worktreeBranchNames s),
      decide (b ∈ localBranchNames s)⟩ := by
    rw [rm_op,
      worktreeBranchNames_congr (rm_step1_worktrees s b),
      localBranchNames_congr (rm_step2_heads _ b),
      localBranchNames_congr (rm_step1_heads s b)]
  obtain ⟨hbase, hA, hB, hC⟩ := rm_op_post s b
  have hconv : convPath (rm_op s b).1 b = convPath s b := convPath_congr hbase b
  have hid : rm_op (rm_op s b).1 b = ((rm_op s b).1, ⟨false, false, false⟩) := by
    have e1 : rm_step1 (rm_op s b).1 b = (rm_op s b).1 := by
      unfold rm_step1
      rw [if_neg (by rw [hconv]; exact hA)]
    have e2 : rm_step2 (rm_op s b).1 b = (rm_op s b).1 := by
      unfold rm_step2
      rw [if_neg hB]
    have e3 : rm_step3 (rm_op s b).1 b = (rm_op s b).1 := by
      unfold rm_step3
      rw [if_neg hC]
    rw [rm_op, e1, e2, e3, hconv, decide_eq_false hA, decide_eq_false hB,
      decide_eq_false hC]
  refine ⟨by rw [hr]; exact ⟨rfl, rfl, rfl⟩, ?_, by rw [hid], by rw [hid]⟩
  rw [hr]
  simp [removedAny, and_assoc]

/-! ### Helper lemmas about the consistency checker and `_cp` -/

theorem foundInWorktree_of_checked {s : EmState} {b : String}
    (h : b ∈ list_checked_out_branches s) : foundInWorktree s b := by
  unfold list_checked_out_branches at h
  obtain ⟨w, hw, hb⟩ := List.mem_map.mp h
  rw [List.mem_filter, decide_eq_true_eq] at hw
  exact ⟨w, hw.1, hb, hb ▸ hw.2⟩

theorem checked_of_foundInWorktree {s : EmState} {b : String}
    (h : foundInWorktree s b) : b ∈ list_checked_out_branches s := by
  obtain ⟨w, hw, hb, hp⟩ := h
  exact List.mem_map.mpr
    ⟨w, List.mem_filter.mpr ⟨hw, by simp [hp, hb]⟩, hb⟩

theorem locals_subset_heads {s : EmState} {b : String}
    (h : b ∈ localBranchNames s) : b ∈ s.heads.map Prod.fst :=
  (List.mem_filter.mp h).1

/-- The source-side guard of a checked-out `src` passes when the four
invariants of a consistent checkout hold. -/
theorem check_branch_src_ok (s : EmState) (src : String)
    (hfound : foundInWorktree s src)
    (hnb : ¬ hasBadWorktree s src)
    (hl : src ∈ localBranchNames s)
    (hg : convPath s src ∈ s.gitDirs)
    (hcur : current_branch_at s (convPath s src) = some src) :
    check_branch s src (some true) (some true) = .ok () := by
  unfold check_branch
  rw [if_neg (by simp [hfound]), if_neg (by simp), if_neg hnb,
    if_neg (by simp [hl]), if_neg (by simp), if_pos hfound,
    if_neg (by simp [hl]), if_neg (by simp [hg]), if_neg (by simp [hcur])]

/-- The guard of a fully absent destination passes. -/
theorem check_branch_absent_ok (s : EmState) (dst : String)
    (hdw : ∀ w ∈ s.worktrees, w.branch ≠ dst)
    (hdl : dst ∉ localBranchNames s)
    (hdg : convPath s dst ∉ s.gitDirs) :
    check_branch s dst (some false) (some false) = .ok () := by
  have hnf : ¬ foundInWorktree s dst := by
    rintro ⟨w, hw, rfl, -⟩
    exact hdw w hw rfl
  have hnb : ¬ hasBadWorktree s dst := by
    rintro ⟨w, hw, rfl, -⟩
    exact hdw w hw rfl
  unfold check_branch
  rw [if_neg (by simp), if_neg (by simp [hnf]), if_neg hnb,
    if_neg (by simp), if_neg (by simp [hdl]), if_neg hnf,
    if_neg (by simp [hdg])]

/-- The guard of a local, not-checked-out, inconsistency-free `src`
passes. -/
theorem check_branch_local_ok (s : EmState) (src : String)
    (hnw : ∀ w ∈ s.worktrees, w.branch ≠ src)
    (hl : src ∈ localBranchNames s)
    (hg : convPath s src ∉ s.gitDirs) :
    check_branch s src (some false) (some true) = .ok () := by
  have hnf : ¬ foundInWorktree s src := by
    rintro ⟨w, hw, rfl, -⟩
    exact hnw w hw rfl
  have hnb : ¬ hasBadWorktree s src := by
    rintro ⟨w, hw, rfl, -⟩
    exact hnw w hw rfl
  unfold check_branch
  rw [if_neg (by simp), if_neg (by simp [hnf]), if_neg hnb,
    if_neg (by simp [hl]), if_neg (by simp), if_neg hnf,
    if_neg (by simp [hg])]

/-- Evaluation of `_cp` in the checked-out-source case, once both guards
pass. -/
theorem cp_op_checkedOut_eq (s : EmState) (src dst : String)
    (hco : src ∈ list_checked_out_branches s)
    (h1 : check_branch s src (some true) (some true) = .ok ())
    (h2 : check_branch s dst (some false) (some false) = .ok ()) :
    cp_op s src dst =
      .ok (cp_finish (create_branch (em_commit s src).1 dst
        (em_commit s src).2) src dst) := by
  unfold cp_op
  rw [if_pos hco, h1, h2]

/-- Evaluation of `_cp` in the local-source case (`src ≠ dst`), once both
guards pass. -/
theorem cp_op_local_eq (s : EmState) (src dst : String)
    (hnc : src ∉ list_checked_out_branches s)
    (hl : src ∈ localBranchNames s)
    (hne : src ≠ dst)
    (h1 : check_branch s src (some false) (some true) = .ok ())
    (h2 : check_branch s dst (some false) (some false) = .ok ()) :
    cp_op s src dst =
      .ok (cp_finish (create_branch s dst (headOf s src)) src dst) := by
  unfold cp_op
  rw [if_neg hnc, if_pos hl, h1, if_neg hne, h2]

/-- Evaluation of `_cp` in the remote-only-source case, once both guards
pass. -/
theorem cp_op_remote_eq (s : EmState) (src dst : String)
    (hnc : src ∉ list_checked_out_branches s)
    (hnl : src ∉ localBranchNames s)
    (hr : src ∈ remoteBranchNames s)
    (h1 : check_branch s src (some false) (some false) = .ok ())
    (h2 : check_branch s dst (some false) (some false) = .ok ()) :
    cp_op s src dst =
      .ok (cp_finish (fetch_branch s src dst) src dst) := by
  unfold cp_op
  rw [if_neg hnc, if_neg hnl, if_pos hr, h1, h2]

theorem alookup_cons_self {β : Type} (k : String) (v : β)
    (t : List (String × β)) : alookup ((k, v) :: t) k = some v := by
  rw [alookup_cons, if_pos rfl]

theorem cp_finish_headOf_ne (s : EmState) (src dst x : String)
    (hx : x ≠ dst) : headOf (cp_finish s src dst) x = headOf s x := by
  unfold cp_finish
  split
  · rfl
  · dsimp only [commitOp, add_worktree]
    unfold headOf
    dsimp only
    rw [alookup_cons, if_neg hx, alookup_filter_ne _ _ _ hx]

theorem create_branch_headOf_ne (s : EmState) (dst x : String) (v : Nat)
    (hx : x ≠ dst) : headOf (create_branch s dst v) x = headOf s x := by
  unfold create_branch headOf
  dsimp only
  rw [alookup_cons, if_neg hx]

theorem create_branch_headOf_self (s : EmState) (dst : String) (v : Nat) :
    headOf (create_branch s dst v) dst = v := by
  unfold create_branch headOf
  dsimp only
  rw [alookup_cons_self]
  rfl

theorem em_commit_pos (s : EmState) (b : String) (h : 0 < pendingOf s b) :
    headOf (em_commit s b).1 b = s.fresh ∧
      (s.fresh, headOf s b) ∈ (em_commit s b).1.parents ∧
      (em_commit s b).2 = s.fresh := by
  unfold em_commit
  rw [if_pos h]
  refine ⟨?_, ?_, rfl⟩
  · unfold commitOp headOf
    dsimp only
    rw [alookup_cons_self]
    rfl
  · unfold commitOp
    dsimp only
    exact List.mem_cons_self _ _

theorem em_commit_zero (s : EmState) (b : String) (h : pendingOf s b = 0) :
    em_commit s b = (s, headOf s b) := by
  unfold em_commit
  rw [if_neg (by omega)]

theorem cp_finish_parents_mem (s : EmState) (src dst : String)
    {pr : Nat × Nat} (h : pr ∈ s.parents) :
    pr ∈ (cp_finish s src dst).parents := by
  unfold cp_finish
  split
  · exact h
  · dsimp only [commitOp, add_worktree]
    exact List.mem_cons_of_mem _ h

/-- The provenance commit `_commit_after_checkout` makes on the new
worktree: the head of `dst` after `cp_finish` is a commit whose parent is
the head `dst` had before (for `src ≠ dst`). -/
theorem cp_finish_provenance (s : EmState) (src dst : String)
    (hne : src ≠ dst) :
    (headOf (cp_finish s src dst) dst, headOf s dst) ∈
      (cp_finish s src dst).parents := by
  unfold cp_finish
  rw [if_neg hne]
  dsimp only [commitOp, add_worktree]
  refine List.mem_cons.mpr (Or.inl ?_)
  simp only [Prod.mk.injEq]
  refine ⟨?_, rfl⟩
  unfold headOf
  dsimp only
  rw [alookup_cons_self]
  rfl

theorem commitOp_headOf_self (v : EmState) (b : String) :
    headOf (commitOp v b).1 b = v.fresh := by
  unfold commitOp headOf
  dsimp only
  rw [alookup_cons_self]
  rfl

/-- Evaluation of `mv` once both guards pass. -/
theorem mv_op_eq (s : EmState) (src dst : String)
    (h1 : check_branch s src (some true) (some true) = .ok ())
    (h2 : check_branch s dst (some false) (some false) = .ok ()) :
    mv_op s src dst = .ok (mv_apply s src dst) := by
  unfold mv_op
  rw [h1, h2]

/-- The commits `mv`'s mutation sequence records: with a clean source the
only commit created is the provenance commit on the destination, parented
on the source's old head; with a dirty source the snapshot commit
(the next fresh id, parented on the old source head) is also recorded; and
the destination's final head is always a child of the id the implicit
commit step returned. -/
theorem mv_apply_spec (s : EmState) (src dst : String) (hne : src ≠ dst) :
    (pendingOf s src = 0 →
      (mv_apply s src dst).parents =
        (headOf (mv_apply s src dst) dst, headOf s src) :: s.parents) ∧
    (0 < pendingOf s src →
      (s.fresh, headOf s src) ∈ (mv_apply s src dst).parents) ∧
    (headOf (mv_apply s src dst) dst, (em_commit s src).2) ∈
      (mv_apply s src dst).parents := by
  unfold mv_apply
  dsimp only
  set s4 := delete_branch (delete_worktree (add_worktree
    (create_branch (em_commit s src).1 dst (em_commit s src).2)
    (convPath (create_branch (em_commit s src).1 dst (em_commit s src).2)
      dst) dst) src) src with hs4
  have p2 : headOf (commitOp s4 dst).1 dst = s4.fresh :=
    commitOp_headOf_self s4 dst
  have p3 : (commitOp s4 dst).1.parents =
      (s4.fresh, headOf s4 dst) :: s4.parents := rfl
  have p4 : s4.parents = (em_commit s src).1.parents := rfl
  have p1 : headOf s4 dst = (em_commit s src).2 := by
    rw [hs4]
    unfold headOf delete_branch delete_worktree prune_worktrees
      add_worktree create_branch
    dsimp only
    rw [alookup_filter_ne _ _ _ (Ne.symm hne), alookup_cons_self]
    rfl
  refine ⟨?_, ?_, ?_⟩
  · intro hp
    rw [p3, p2, p1, p4, em_commit_zero s src hp]
  · intro hp
    rw [p3, p4]
    exact List.mem_cons_of_mem _ (em_commit_pos s src hp).2.1
  · rw [p3, p2, p1]
    exact List.mem_cons_self _ _

/-- C1 counterexample: branch `a` is checked out and clean (zero pending
deltas); `cp(a, b)` succeeds, yet no commit is created on the source
branch `a` — its head is still the old commit 5 — while the single commit
the operation creates (id 6, the provenance commit) lands on the
destination `b`, with 5 as its parent.  The claim's "even when the source
has zero pending changes a new (possibly empty) commit is created on the
source branch" is false of the code: `_commit` returns the existing head
without committing when `status()` is empty. -/
theorem cp_no_empty_commit_cex :
    "a" ∈ list_checked_out_branches exClean ∧
    pendingOf exClean "a" = 0 ∧
    headOf exClean "a" = 5 ∧
    (cp_op exClean "a" "b").map
      (fun t => (headOf t "a", headOf t "b", t.parents)) =
      .ok (5, 6, [(6, 5)]) := by decide

/-- C1 (amended): for a copy (`_cp`) and likewise a rename (`mv`) whose
source branch is checked out (and consistent) and whose destination is
absent, the operation runs the implicit commit step on the source before
creating the destination, but that step commits only when there are
pending changes: with pending changes a new snapshot commit (the next
fresh id, parented on the old source head) appears on the source and is
returned; with a clean tree no commit is created on the source — after a
copy the source head is unchanged, and after a rename the only commit the
whole operation recorded is the provenance commit on the destination,
parented directly on the source's old head.  In both operations and both
cases the destination branch is created at the returned commit id, on top
of which the (allow-empty) provenance commit is then recorded, so the
destination's final head is a child of the returned id. -/
theorem cp_commit_before_copy (s : EmState) (src dst : String)
    (hne : src ≠ dst)
    (hco : src ∈ list_checked_out_branches s)
    (hsw : ¬ hasBadWorktree s src)
    (hsl : src ∈ localBranchNames s)
    (hsg : convPath s src ∈ s.gitDirs)
    (hscur : current_branch_at s (convPath s src) = some src)
    (hdw : ∀ w ∈ s.worktrees, w.branch ≠ dst)
    (hdh : dst ∉ s.heads.map Prod.fst)
    (hdg : convPath s dst ∉ s.gitDirs) :
    (∃ t, cp_op s src dst = .ok t ∧
      (pendingOf s src = 0 → headOf t src = headOf s src) ∧
      (0 < pendingOf s src →
        headOf t src = s.fresh ∧ (s.fresh, headOf s src) ∈ t.parents) ∧
      (headOf t dst, (em_commit s src).2) ∈ t.parents) ∧
    (∃ u, mv_op s src dst = .ok u ∧
      (pendingOf s src = 0 →
        u.parents = (headOf u dst, headOf s src) :: s.parents) ∧
      (0 < pendingOf s src → (s.fresh, headOf s src) ∈ u.parents) ∧
      (headOf u dst, (em_commit s src).2) ∈ u.parents) ∧
    (em_commit s src).2 =
      (if 0 < pendingOf s src then s.fresh else headOf s src) := by
  have hdl : dst ∉ localBranchNames s := fun h => hdh (locals_subset_heads h)
  have h2 := check_branch_absent_ok s dst hdw hdl hdg
  have h1 := check_branch_src_ok s src (foundInWorktree_of_checked hco) hsw
    hsl hsg hscur
  refine ⟨⟨_, cp_op_checkedOut_eq s src dst hco h1 h2, ?_, ?_, ?_⟩,
    ⟨_, mv_op_eq s src dst h1 h2, (mv_apply_spec s src dst hne).1,
      (mv_apply_spec s src dst hne).2.1,
      (mv_apply_spec s src dst hne).2.2⟩, ?_⟩
  · intro hp
    rw [cp_finish_headOf_ne _ _ _ _ hne, create_branch_headOf_ne _ _ _ _ hne,
      em_commit_zero s src hp]
  · intro hp
    obtain ⟨ha, hb, -⟩ := em_commit_pos s src hp
    refine ⟨?_, ?_⟩
    · rw [cp_finish_headOf_ne _ _ _ _ hne,
        create_branch_headOf_ne _ _ _ _ hne, ha]
    · exact cp_finish_parents_mem _ src dst hb
  · have h3 := cp_finish_provenance
      (create_branch (em_commit s src).1 dst (em_commit s src).2) src dst hne
    rw [create_branch_headOf_self] at h3
    exact h3
  · unfold em_commit
    split <;> rfl

/-! ### Shape lemmas for the round-trip proof

The branch/path projection of the worktree registry is what the
consistency arguments track: the head-id updates a commit performs never
change it. -/

theorem pjoin_inj (x : String) {a b : String} (h : pjoin x a = pjoin x b) :
    a = b := by
  unfold pjoin at h
  have h2 := congrArg String.data h
  simp only [String.data_append] at h2
  exact String.ext (List.append_cancel_left h2)

theorem convPath_inj (s : EmState) {a b : String}
    (h : convPath s a = convPath s b) : a = b := pjoin_inj _ h

theorem mem_localBranchNames_iff (v : EmState) (x : String) :
    x ∈ localBranchNames v ↔
      x ∈ v.heads.map Prod.fst ∧ ¬ isControlName x := by
  unfold localBranchNames
  rw [List.mem_filter, decide_eq_true_eq]

theorem checked_iff_shape (v : EmState) (x : String) :
    x ∈ list_checked_out_branches v ↔
      (x, convPath v x) ∈ v.worktrees.map (fun w => (w.branch, w.path)) := by
  constructor
  · intro h
    obtain ⟨w, hw, hb, hp⟩ := foundInWorktree_of_checked h
    exact List.mem_map.mpr ⟨w, hw, by rw [hb, hp]⟩
  · intro h
    obtain ⟨w, hw, heq⟩ := List.mem_map.mp h
    rw [Prod.mk.injEq] at heq
    exact checked_of_foundInWorktree ⟨w, hw, heq.1, heq.2⟩

theorem shape_map_headUpdate (l : List Worktree) (b : String) (c : Nat) :
    (l.map (fun w => if w.branch = b then { w with head := c } else w)).map
      (fun w => (w.branch, w.path)) =
      l.map (fun w => (w.branch, w.path)) := by
  rw [List.map_map]
  refine List.map_congr_left ?_
  intro w _
  by_cases h : w.branch = b <;> simp [h]

theorem shape_mem_branch (l : List Worktree) (b p : String)
    (h : (b, p) ∈ l.map (fun w => (w.branch, w.path))) :
    b ∈ l.map (fun w => w.branch) := by
  obtain ⟨w, hw, heq⟩ := List.mem_map.mp h
  rw [Prod.mk.injEq] at heq
  exact List.mem_map.mpr ⟨w, hw, heq.1⟩

theorem heads_filter_names (l : List (String × Nat)) (b x : String) :
    x ∈ (l.filter (fun p => decide (p.1 ≠ b))).map Prod.fst ↔
      x ∈ l.map Prod.fst ∧ x ≠ b := by
  constructor
  · intro h
    obtain ⟨pr, hpr, rfl⟩ := List.mem_map.mp h
    rw [List.mem_filter, decide_eq_true_eq] at hpr
    exact ⟨List.mem_map.mpr ⟨pr, hpr.1, rfl⟩, hpr.2⟩
  · rintro ⟨h, hx⟩
    obtain ⟨pr, hpr, rfl⟩ := List.mem_map.mp h
    exact List.mem_map.mpr
      ⟨pr, List.mem_filter.mpr ⟨hpr, by simpa using hx⟩, rfl⟩

theorem delete_worktree_mem_dirs (v : EmState) (b q : String) :
    q ∈ (delete_worktree v b).dirs ↔
      q ∈ v.dirs ∧ ∀ w ∈ v.worktrees, w.branch = b → w.path ≠ q := by
  unfold delete_worktree prune_worktrees
  dsimp only
  rw [List.mem_filter, decide_eq_true_eq]
  constructor
  · rintro ⟨hq, hnv⟩
    refine ⟨hq, fun w hw hb hp => hnv ?_⟩
    exact List.mem_map.mpr ⟨w, List.mem_filter.mpr ⟨hw, by simp [hb]⟩, hp⟩
  · rintro ⟨hq, hall⟩
    refine ⟨hq, fun hv => ?_⟩
    obtain ⟨w, hw, hp⟩ := List.mem_map.mp hv
    rw [List.mem_filter, decide_eq_true_eq] at hw
    exact hall w hw.1 hw.2 hp

theorem delete_worktree_mem_gitDirs (v : EmState) (b q : String) :
    q ∈ (delete_worktree v b).gitDirs ↔
      q ∈ v.gitDirs ∧ ∀ w ∈ v.worktrees, w.branch = b → w.path ≠ q := by
  unfold delete_worktree prune_worktrees
  dsimp only
  rw [List.mem_filter, decide_eq_true_eq]
  constructor
  · rintro ⟨hq, hnv⟩
    refine ⟨hq, fun w hw hb hp => hnv ?_⟩
    exact List.mem_map.mpr ⟨w, List.mem_filter.mpr ⟨hw, by simp [hb]⟩, hp⟩
  · rintro ⟨hq, hall⟩
    refine ⟨hq, fun hv => ?_⟩
    obtain ⟨w, hw, hp⟩ := List.mem_map.mp hv
    rw [List.mem_filter, decide_eq_true_eq] at hw
    exact hall w hw.1 hw.2 hp

theorem delete_worktree_mem_worktrees (v : EmState) (b : String)
    (w : Worktree) :
    w ∈ (delete_worktree v b).worktrees ↔
      w ∈ v.worktrees ∧ w.path ∈ (delete_worktree v b).dirs := by
  unfold delete_worktree prune_worktrees
  dsimp only
  rw [List.mem_filter, decide_eq_true_eq]

/-- The observable fields of the state `cp_finish` produces for
`src ≠ dst`: a new worktree record, directory and repository marker at the
destination's convention path, the destination ref freshly written, and
everything else of the intermediate state kept. -/
theorem cp_finish_fields (sMid : EmState) (src dst : String)
    (hne : src ≠ dst) :
    (cp_finish sMid src dst).basedir = sMid.basedir ∧
    (cp_finish sMid src dst).dirs = convPath sMid dst :: sMid.dirs ∧
    (cp_finish sMid src dst).gitDirs = convPath sMid dst :: sMid.gitDirs ∧
    (cp_finish sMid src dst).remoteRefs = sMid.remoteRefs ∧
    (cp_finish sMid src dst).worktrees.map (fun w => (w.branch, w.path)) =
      (dst, convPath sMid dst) ::
        sMid.worktrees.map (fun w => (w.branch, w.path)) ∧
    (cp_finish sMid src dst).heads =
      (dst, sMid.fresh) ::
        sMid.heads.filter (fun p => decide (p.1 ≠ dst)) := by
  unfold cp_finish
  rw [if_neg hne]
  dsimp only [commitOp, add_worktree]
  refine ⟨rfl, rfl, rfl, rfl, ?_, rfl⟩
  rw [shape_map_headUpdate]
  rfl

/-- After `cp_finish` (the copy's worktree creation and provenance commit,
`src ≠ dst`) followed by `rm` of the destination, the destination is gone
from every namespace again and the source's observable state class is
unchanged.  `sMid` abstracts the state `_cp` had built just before
`add_worktree` — after the per-case branch creation — characterised by how
its observable fields relate to the original state `s`. -/
theorem cp_finish_rm_post (s sMid : EmState) (src dst : String)
    (hne : src ≠ dst) (hctl : ¬ isControlName dst)
    (hbase : sMid.basedir = s.basedir)
    (hdirs : sMid.dirs = s.dirs)
    (hgitd : sMid.gitDirs = s.gitDirs)
    (hrem : sMid.remoteRefs = s.remoteRefs)
    (hwt : sMid.worktrees.map (fun w => (w.branch, w.path)) =
      s.worktrees.map (fun w => (w.branch, w.path)))
    (hheads : ∀ x, x ≠ dst →
      (x ∈ sMid.heads.map Prod.fst ↔ x ∈ s.heads.map Prod.fst))
    (hdw : ∀ w ∈ s.worktrees, w.branch ≠ dst)
    (hQd : src ∈ list_checked_out_branches s → convPath s src ∈ s.dirs) :
    (rm_op (cp_finish sMid src dst) dst).1.basedir = s.basedir ∧
    convPath s dst ∉ (rm_op (cp_finish sMid src dst) dst).1.dirs ∧
    convPath s dst ∉ (rm_op (cp_finish sMid src dst) dst).1.gitDirs ∧
    (∀ w ∈ (rm_op (cp_finish sMid src dst) dst).1.worktrees,
      w.branch ≠ dst) ∧
    dst ∉ (rm_op (cp_finish sMid src dst) dst).1.heads.map Prod.fst ∧
    (rm_op (cp_finish sMid src dst) dst).1.remoteRefs = s.remoteRefs ∧
    branch_state (rm_op (cp_finish sMid src dst) dst).1 src =
      branch_state s src := by
  obtain ⟨htb, htd, htg, htr, hts, hth⟩ := cp_finish_fields sMid src dst hne
  set t := cp_finish sMid src dst with hteq
  rw [convPath_congr hbase] at htd htg hts
  rw [hdirs] at htd
  rw [hgitd] at htg
  rw [hwt] at hts
  rw [hrem] at htr
  have htbs : t.basedir = s.basedir := by rw [htb, hbase]
  have hPt : convPath t dst = convPath s dst := convPath_congr htbs dst
  have hstep1 : rm_step1 t dst = remove_dir t (convPath s dst) := by
    unfold rm_step1
    rw [hPt, if_pos (by rw [htd]; exact List.mem_cons_self _ _)]
  set t1 := remove_dir t (convPath s dst) with ht1eq
  have ht1d : ∀ q, q ∈ t1.dirs ↔ q ∈ s.dirs ∧ q ≠ convPath s dst := by
    intro q
    rw [ht1eq]
    unfold remove_dir
    dsimp only
    rw [List.mem_filter, decide_eq_true_eq, htd]
    constructor
    · rintro ⟨hq, hqne⟩
      rcases List.mem_cons.mp hq with h | h
      · exact absurd h hqne
      · exact ⟨h, hqne⟩
    · rintro ⟨hq, hqne⟩
      exact ⟨List.mem_cons_of_mem _ hq, hqne⟩
  have ht1g : ∀ q, q ∈ t1.gitDirs ↔ q ∈ s.gitDirs ∧ q ≠ convPath s dst := by
    intro q
    rw [ht1eq]
    unfold remove_dir
    dsimp only
    rw [List.mem_filter, decide_eq_true_eq, htg]
    constructor
    · rintro ⟨hq, hqne⟩
      rcases List.mem_cons.mp hq with h | h
      · exact absurd h hqne
      · exact ⟨h, hqne⟩
    · rintro ⟨hq, hqne⟩
      exact ⟨List.mem_cons_of_mem _ hq, hqne⟩
  have ht1w : t1.worktrees = t.worktrees := rfl
  have ht1h : t1.heads = t.heads := rfl
  have hg2 : dst ∈ worktreeBranchNames t1 := by
    unfold worktreeBranchNames
    rw [ht1w]
    exact shape_mem_branch _ dst (convPath s dst)
      (by rw [hts]; exact List.mem_cons_self _ _)
  have hstep2 : rm_step2 t1 dst = delete_worktree t1 dst := by
    unfold rm_step2
    rw [if_pos hg2]
  have ht2d : ∀ q, q ∈ (delete_worktree t1 dst).dirs ↔
      q ∈ s.dirs ∧ q ≠ convPath s dst := by
    intro q
    rw [delete_worktree_mem_dirs]
    constructor
    · rintro ⟨hq, -⟩
      exact (ht1d q).mp hq
    · rintro ⟨hq, hqne⟩
      refine ⟨(ht1d q).mpr ⟨hq, hqne⟩, ?_⟩
      intro w hw hb hpq
      rw [ht1w] at hw
      have hshape : (dst, w.path) ∈
          t.worktrees.map (fun w => (w.branch, w.path)) :=
        List.mem_map.mpr ⟨w, hw, by rw [hb]⟩
      rw [hts] at hshape
      rcases List.mem_cons.mp hshape with heq | hmem
      · rw [Prod.mk.injEq] at heq
        exact hqne (hpq ▸ heq.2)
      · obtain ⟨w0, hw0, heq0⟩ := List.mem_map.mp hmem
        rw [Prod.mk.injEq] at heq0
        exact hdw w0 hw0 heq0.1
  have ht2g : ∀ q, q ∈ (delete_worktree t1 dst).gitDirs ↔
      q ∈ s.gitDirs ∧ q ≠ convPath s dst := by
    intro q
    rw [delete_worktree_mem_gitDirs]
    constructor
    · rintro ⟨hq, -⟩
      exact (ht1g q).mp hq
    · rintro ⟨hq, hqne⟩
      refine ⟨(ht1g q).mpr ⟨hq, hqne⟩, ?_⟩
      intro w hw hb hpq
      rw [ht1w] at hw
      have hshape : (dst, w.path) ∈
          t.worktrees.map (fun w => (w.branch, w.path)) :=
        List.mem_map.mpr ⟨w, hw, by rw [hb]⟩
      rw [hts] at hshape
      rcases List.mem_cons.mp hshape with heq | hmem
      · rw [Prod.mk.injEq] at heq
        exact hqne (hpq ▸ heq.2)
      · obtain ⟨w0, hw0, heq0⟩ := List.mem_map.mp hmem
        rw [Prod.mk.injEq] at heq0
        exact hdw w0 hw0 heq0.1
  have ht2w : ∀ w, w ∈ (delete_worktree t1 dst).worktrees ↔
      w ∈ t.worktrees ∧ (w.path ∈ s.dirs ∧ w.path ≠ convPath s dst) := by
    intro w
    rw [delete_worktree_mem_worktrees, ht1w]
    exact and_congr Iff.rfl (ht2d w.path)
  have ht2h : (delete_worktree t1 dst).heads = t.heads := rfl
  have hg3 : dst ∈ localBranchNames (delete_worktree t1 dst) := by
    rw [mem_localBranchNames_iff]
    refine ⟨?_, hctl⟩
    rw [ht2h, hth]
    exact List.mem_map.mpr ⟨(dst, sMid.fresh), List.mem_cons_self _ _, rfl⟩
  have hstep3 : rm_step3 (delete_worktree t1 dst) dst =
      delete_branch (delete_worktree t1 dst) dst := by
    unfold rm_step3
    rw [if_pos hg3]
  have hu : (rm_op t dst).1 =
      delete_branch (delete_worktree t1 dst) dst := by
    show rm_step3 (rm_step2 (rm_step1 t dst) dst) dst = _
    rw [hstep1, hstep2, hstep3]
  rw [hu]
  have hud : ∀ q, q ∈ (delete_branch (delete_worktree t1 dst) dst).dirs ↔
      q ∈ s.dirs ∧ q ≠ convPath s dst := ht2d
  have hug : ∀ q, q ∈ (delete_branch (delete_worktree t1 dst) dst).gitDirs ↔
      q ∈ s.gitDirs ∧ q ≠ convPath s dst := ht2g
  have huw : ∀ w, w ∈ (delete_branch (delete_worktree t1 dst) dst).worktrees ↔
      w ∈ t.worktrees ∧ (w.path ∈ s.dirs ∧ w.path ≠ convPath s dst) := ht2w
  have huh : (delete_branch (delete_worktree t1 dst) dst).heads =
      t.heads.filter (fun p => decide (p.1 ≠ dst)) := rfl
  have hub : (delete_branch (delete_worktree t1 dst) dst).basedir =
      s.basedir := htbs
  have hur : (delete_branch (delete_worktree t1 dst) dst).remoteRefs =
      s.remoteRefs := htr
  refine ⟨hub, ?_, ?_, ?_, ?_, hur, ?_⟩
  · intro h
    exact absurd rfl ((hud _).mp h).2
  · intro h
    exact absurd rfl ((hug _).mp h).2
  · intro w hw hb
    obtain ⟨hwT, hpS, hpP⟩ := (huw w).mp hw
    have hshape : (dst, w.path) ∈
        t.worktrees.map (fun w => (w.branch, w.path)) :=
      List.mem_map.mpr ⟨w, hwT, by rw [hb]⟩
    rw [hts] at hshape
    rcases List.mem_cons.mp hshape with heq | hmem
    · rw [Prod.mk.injEq] at heq
      exact hpP heq.2
    · obtain ⟨w0, hw0, heq0⟩ := List.mem_map.mp hmem
      rw [Prod.mk.injEq] at heq0
      exact hdw w0 hw0 heq0.1
  · intro h
    rw [huh] at h
    exact absurd rfl ((heads_filter_names _ _ _).mp h).2
  · have hQ : convPath (delete_branch (delete_worktree t1 dst) dst) src =
        convPath s src := convPath_congr hub src
    have hnames : src ∈ (delete_branch (delete_worktree t1 dst) dst).heads.map
        Prod.fst ↔ src ∈ s.heads.map Prod.fst := by
      rw [huh, heads_filter_names, hth]
      constructor
      · rintro ⟨h, hsd⟩
        obtain ⟨pr, hpr, rfl⟩ := List.mem_map.mp h
        rcases List.mem_cons.mp hpr with heq | hpr'
        · rw [heq] at hsd
          exact absurd rfl hsd
        · have h2 := (heads_filter_names sMid.heads dst pr.1).mp
            (List.mem_map.mpr ⟨pr, hpr', rfl⟩)
          exact (hheads pr.1 h2.2).mp h2.1
      · intro h
        refine ⟨?_, hne⟩
        have h2 : src ∈ (sMid.heads.filter
            (fun p => decide (p.1 ≠ dst))).map Prod.fst :=
          (heads_filter_names _ _ _).mpr ⟨(hheads src hne).mpr h, hne⟩
        obtain ⟨pr, hpr, rfl⟩ := List.mem_map.mp h2
        exact List.mem_map.mpr ⟨pr, List.mem_cons_of_mem _ hpr, rfl⟩
    have e2 : src ∈ localBranchNames
        (delete_branch (delete_worktree t1 dst) dst) ↔
        src ∈ localBranchNames s := by
      rw [mem_localBranchNames_iff, mem_localBranchNames_iff]
      exact ⟨fun ⟨h1, h2⟩ => ⟨hnames.mp h1, h2⟩,
        fun ⟨h1, h2⟩ => ⟨hnames.mpr h1, h2⟩⟩
    have e1 : src ∈ list_checked_out_branches
        (delete_branch (delete_worktree t1 dst) dst) ↔
        src ∈ list_checked_out_branches s := by
      rw [checked_iff_shape, checked_iff_shape, hQ]
      constructor
      · intro h
        obtain ⟨w, hw, heq⟩ := List.mem_map.mp h
        rw [Prod.mk.injEq] at heq
        obtain ⟨hwT, -, -⟩ := (huw w).mp hw
        have hshape : (w.branch, w.path) ∈
            t.worktrees.map (fun w => (w.branch, w.path)) :=
          List.mem_map.mpr ⟨w, hwT, rfl⟩
        rw [hts] at hshape
        rcases List.mem_cons.mp hshape with heq2 | hmem
        · rw [Prod.mk.injEq] at heq2
          exact absurd (heq.1.symm.trans heq2.1) hne
        · rw [heq.1, heq.2] at hmem
          exact hmem
      · intro h
        have hshape : (src, convPath s src) ∈
            t.worktrees.map (fun w => (w.branch, w.path)) := by
          rw [hts]
          exact List.mem_cons_of_mem _ h
        obtain ⟨w1, hw1, heq1⟩ := List.mem_map.mp hshape
        rw [Prod.mk.injEq] at heq1
        have hcheckeds : src ∈ list_checked_out_branches s :=
          (checked_iff_shape s src).mpr h
        have hQP : convPath s src ≠ convPath s dst :=
          fun hqp => hne (convPath_inj s hqp)
        refine List.mem_map.mpr ⟨w1, (huw w1).mpr ⟨hw1, ?_, ?_⟩,
          by rw [Prod.mk.injEq]; exact heq1⟩
        · rw [heq1.2]
          exact hQd hcheckeds
        · rw [heq1.2]
          exact hQP
    have e3 : remoteBranchNames
        (delete_branch (delete_worktree t1 dst) dst) =
        remoteBranchNames s := by
      unfold remoteBranchNames
      rw [hur]
    unfold branch_state
    rw [e3]
    by_cases c1 : src ∈ list_checked_out_branches s
    · rw [if_pos (e1.mpr c1), if_pos c1]
    · rw [if_neg (fun h => c1 (e1.mp h)), if_neg c1]
      by_cases cb : src ∈ localBranchNames s
      · rw [if_pos (e2.mpr cb), if_pos cb]
      · rw [if_neg (fun h => cb (e2.mp h)), if_neg cb]

/-- The observable fields `_commit` can touch: it never moves directories,
worktree paths, remotes or the set of ref names (given the committed
branch's ref exists). -/
theorem em_commit_obs (s : EmState) (b : String)
    (hb : b ∈ s.heads.map Prod.fst) :
    (em_commit s b).1.basedir = s.basedir ∧
    (em_commit s b).1.dirs = s.dirs ∧
    (em_commit s b).1.gitDirs = s.gitDirs ∧
    (em_commit s b).1.remoteRefs = s.remoteRefs ∧
    (em_commit s b).1.worktrees.map (fun w => (w.branch, w.path)) =
      s.worktrees.map (fun w => (w.branch, w.path)) ∧
    ∀ x, x ∈ (em_commit s b).1.heads.map Prod.fst ↔
      x ∈ s.heads.map Prod.fst := by
  unfold em_commit
  split
  · dsimp only [commitOp]
    refine ⟨rfl, rfl, rfl, rfl, shape_map_headUpdate _ _ _, ?_⟩
    intro x
    constructor
    · intro h
      obtain ⟨pr, hpr, rfl⟩ := List.mem_map.mp h
      rcases List.mem_cons.mp hpr with heq | hpr'
      · rw [heq]
        exact hb
      · exact ((heads_filter_names s.heads b pr.1).mp
          (List.mem_map.mpr ⟨pr, hpr', rfl⟩)).1
    · intro h
      by_cases hxb : x = b
      · subst hxb
        exact List.mem_map.mpr ⟨(x, s.fresh), List.mem_cons_self _ _, rfl⟩
      · have h2 : x ∈ (s.heads.filter
            (fun p => decide (p.1 ≠ b))).map Prod.fst :=
          (heads_filter_names _ _ _).mpr ⟨h, hxb⟩
        obtain ⟨pr, hpr, rfl⟩ := List.mem_map.mp h2
        exact List.mem_map.mpr ⟨pr, List.mem_cons_of_mem _ hpr, rfl⟩
  · exact ⟨rfl, rfl, rfl, rfl, rfl, fun _ => Iff.rfl⟩

/-- The observable fields after `create_branch`: only the new ref name is
added. -/
theorem create_branch_obs (c : EmState) (dst : String) (v : Nat) :
    (create_branch c dst v).basedir = c.basedir ∧
    (create_branch c dst v).dirs = c.dirs ∧
    (create_branch c dst v).gitDirs = c.gitDirs ∧
    (create_branch c dst v).remoteRefs = c.remoteRefs ∧
    (create_branch c dst v).worktrees.map (fun w => (w.branch, w.path)) =
      c.worktrees.map (fun w => (w.branch, w.path)) ∧
    ∀ x, x ≠ dst → (x ∈ (create_branch c dst v).heads.map Prod.fst ↔
      x ∈ c.heads.map Prod.fst) := by
  refine ⟨rfl, rfl, rfl, rfl, rfl, ?_⟩
  intro x hx
  constructor
  · intro h
    obtain ⟨pr, hpr, rfl⟩ := List.mem_map.mp h
    rcases List.mem_cons.mp hpr with rfl | hpr'
    · exact absurd rfl hx
    · exact List.mem_map.mpr ⟨pr, hpr', rfl⟩
  · intro h
    obtain ⟨pr, hpr, rfl⟩ := List.mem_map.mp h
    exact List.mem_map.mpr ⟨pr, List.mem_cons_of_mem _ hpr, rfl⟩

/-- The observable fields after `fetch` of `src` into a new ref `dst`:
only the `dst` ref name is added. -/
theorem fetch_branch_obs (s : EmState) (src dst : String) :
    (fetch_branch s src dst).basedir = s.basedir ∧
    (fetch_branch s src dst).dirs = s.dirs ∧
    (fetch_branch s src dst).gitDirs = s.gitDirs ∧
    (fetch_branch s src dst).remoteRefs = s.remoteRefs ∧
    (fetch_branch s src dst).worktrees.map (fun w => (w.branch, w.path)) =
      s.worktrees.map (fun w => (w.branch, w.path)) ∧
    ∀ x, x ≠ dst → (x ∈ (fetch_branch s src dst).heads.map Prod.fst ↔
      x ∈ s.heads.map Prod.fst) := by
  refine ⟨rfl, rfl, rfl, rfl, rfl, ?_⟩
  intro x hx
  constructor
  · intro h
    obtain ⟨pr, hpr, rfl⟩ := List.mem_map.mp h
    rcases List.mem_cons.mp hpr with rfl | hpr'
    · exact absurd rfl hx
    · exact ((heads_filter_names s.heads dst pr.1).mp
        (List.mem_map.mpr ⟨pr, hpr', rfl⟩)).1
  · intro h
    have h2 := (heads_filter_names s.heads dst x).mpr ⟨h, hx⟩
    obtain ⟨pr, hpr, rfl⟩ := List.mem_map.mp h2
    exact List.mem_map.mpr ⟨pr, List.mem_cons_of_mem _ hpr, rfl⟩

/-- Packaging of the round-trip conclusions: with the destination absent
before and absent after, each namespace's membership is restored. -/
theorem roundtrip_conclusions (s u : EmState) (dst : String)
    (hdw : ∀ w ∈ s.worktrees, w.branch ≠ dst)
    (hdh : dst ∉ s.heads.map Prod.fst)
    (hdd : convPath s dst ∉ s.dirs)
    (hdg : convPath s dst ∉ s.gitDirs)
    (m1 : convPath s dst ∉ u.dirs)
    (m2 : convPath s dst ∉ u.gitDirs)
    (m3 : ∀ w ∈ u.worktrees, w.branch ≠ dst)
    (m4 : dst ∉ u.heads.map Prod.fst) :
    (convPath s dst ∈ u.dirs ↔ convPath s dst ∈ s.dirs) ∧
    (convPath s dst ∈ u.gitDirs ↔ convPath s dst ∈ s.gitDirs) ∧
    ((∃ w ∈ u.worktrees, w.branch = dst) ↔
      (∃ w ∈ s.worktrees, w.branch = dst)) ∧
    ((dst ∈ u.heads.map Prod.fst) ↔ (dst ∈ s.heads.map Prod.fst)) := by
  refine ⟨iff_of_false m1 hdd, iff_of_false m2 hdg, ?_, iff_of_false m4 hdh⟩
  refine iff_of_false ?_ ?_
  · rintro ⟨w, hw, hb⟩
    exact m3 w hw hb
  · rintro ⟨w, hw, hb⟩
    exact hdw w hw hb

/-- C1 witness: the dirty state `exDirty` (one pending delta on the
checked-out `a`): both copying and renaming it create the snapshot commit
on `a` and parent the destination's provenance commit on the returned
id. -/
theorem cp_commit_before_copy_witness :
    (∃ t, cp_op exDirty "a" "b" = .ok t ∧
      (pendingOf exDirty "a" = 0 → headOf t "a" = headOf exDirty "a") ∧
      (0 < pendingOf exDirty "a" →
        headOf t "a" = exDirty.fresh ∧
          (exDirty.fresh, headOf exDirty "a") ∈ t.parents) ∧
      (headOf t "b", (em_commit exDirty "a").2) ∈ t.parents) ∧
    (∃ u, mv_op exDirty "a" "b" = .ok u ∧
      (pendingOf exDirty "a" = 0 →
        u.parents =
          (headOf u "b", headOf exDirty "a") :: exDirty.parents) ∧
      (0 < pendingOf exDirty "a" →
        (exDirty.fresh, headOf exDirty "a") ∈ u.parents) ∧
      (headOf u "b", (em_commit exDirty "a").2) ∈ u.parents) ∧
    (em_commit exDirty "a").2 =
      (if 0 < pendingOf exDirty "a" then exDirty.fresh
        else headOf exDirty "a") :=
  cp_commit_before_copy exDirty "a" "b" (by decide) (by decide) (by decide)
    (by decide) (by decide) (by decide) (by decide) (by decide) (by decide)

/-- C6: for distinct `src` and `dst` with `src` existing (checked out,
local, or remote-only, each consistently) and `dst` absent from all four
namespaces, `copy(src, dst)` succeeds, and immediately running
`remove(dst)` restores the directory, worktree, local-branch and
remote-branch namespaces to their pre-copy state with respect to the name
`dst` (absent again, membership exactly as before), while `src`'s
observable state classification is unchanged.  (The leading-character
assertion of `cp`/`rm` guarantees `dst` is not a control name.) -/
theorem cp_rm_roundtrip (s : EmState) (src dst : String)
    (hne : src ≠ dst) (hctl : ¬ isControlName dst)
    (hdw : ∀ w ∈ s.worktrees, w.branch ≠ dst)
    (hdh : dst ∉ s.heads.map Prod.fst)
    (hdd : convPath s dst ∉ s.dirs)
    (hdg : convPath s dst ∉ s.gitDirs)
    (hdr : dst ∉ remoteBranchNames s)
    (hsw : ∀ w ∈ s.worktrees, w.branch = src → w.path = convPath s src)
    (hsc : src ∈ list_checked_out_branches s →
      src ∈ localBranchNames s ∧ convPath s src ∈ s.dirs ∧
        convPath s src ∈ s.gitDirs ∧
        current_branch_at s (convPath s src) = some src)
    (hsn : src ∉ list_checked_out_branches s → convPath s src ∉ s.gitDirs)
    (hex : src ∈ list_checked_out_branches s ∨ src ∈ localBranchNames s ∨
      src ∈ remoteBranchNames s) :
    ∃ t, cp_op s src dst = .ok t ∧
      (convPath s dst ∈ (rm_op t dst).1.dirs ↔ convPath s dst ∈ s.dirs) ∧
      (convPath s dst ∈ (rm_op t dst).1.gitDirs ↔
        convPath s dst ∈ s.gitDirs) ∧
      ((∃ w ∈ (rm_op t dst).1.worktrees, w.branch = dst) ↔
        (∃ w ∈ s.worktrees, w.branch = dst)) ∧
      ((dst ∈ (rm_op t dst).1.heads.map Prod.fst) ↔
        (dst ∈ s.heads.map Prod.fst)) ∧
      (rm_op t dst).1.remoteRefs = s.remoteRefs ∧
      branch_state (rm_op t dst).1 src = branch_state s src := by
  have hdl : dst ∉ localBranchNames s := fun h => hdh (locals_subset_heads h)
  have h2 := check_branch_absent_ok s dst hdw hdl hdg
  by_cases hco : src ∈ list_checked_out_branches s
  · obtain ⟨hsl, hsd, hsg, hscur⟩ := hsc hco
    have hnb : ¬ hasBadWorktree s src := fun ⟨w, hw, hb, hp⟩ =>
      hp (hsw w hw hb)
    have h1 := check_branch_src_ok s src (foundInWorktree_of_checked hco)
      hnb hsl hsg hscur
    have hcp := cp_op_checkedOut_eq s src dst hco h1 h2
    have hsrcn : src ∈ s.heads.map Prod.fst := locals_subset_heads hsl
    obtain ⟨e1, e2, e3, e4, e5, e6⟩ := em_commit_obs s src hsrcn
    obtain ⟨f1, f2, f3, f4, f5, f6⟩ :=
      create_branch_obs (em_commit s src).1 dst (em_commit s src).2
    obtain ⟨m0, m1, m2, m3, m4, m5, m6⟩ := cp_finish_rm_post s
      (create_branch (em_commit s src).1 dst (em_commit s src).2) src dst
      hne hctl (by rw [f1, e1]) (by rw [f2, e2]) (by rw [f3, e3])
      (by rw [f4, e4]) (by rw [f5, e5])
      (fun x hx => (f6 x hx).trans (e6 x)) hdw (fun _ => hsd)
    obtain ⟨r1, r2, r3, r4⟩ := roundtrip_conclusions s _ dst hdw hdh hdd
      hdg m1 m2 m3 m4
    exact ⟨_, hcp, r1, r2, r3, r4, m5, m6⟩
  · by_cases hlo : src ∈ localBranchNames s
    · have hnw : ∀ w ∈ s.worktrees, w.branch ≠ src := fun w hw hb =>
        hco (checked_of_foundInWorktree ⟨w, hw, hb, hsw w hw hb⟩)
      have h1 := check_branch_local_ok s src hnw hlo (hsn hco)
      have hcp := cp_op_local_eq s src dst hco hlo hne h1 h2
      obtain ⟨f1, f2, f3, f4, f5, f6⟩ :=
        create_branch_obs s dst (headOf s src)
      obtain ⟨m0, m1, m2, m3, m4, m5, m6⟩ := cp_finish_rm_post s
        (create_branch s dst (headOf s src)) src dst hne hctl f1 f2 f3 f4
        f5 f6 hdw (fun h => absurd h hco)
      obtain ⟨r1, r2, r3, r4⟩ := roundtrip_conclusions s _ dst hdw hdh hdd
        hdg m1 m2 m3 m4
      exact ⟨_, hcp, r1, r2, r3, r4, m5, m6⟩
    · have hre : src ∈ remoteBranchNames s := by
        rcases hex with h | h | h
        · exact absurd h hco
        · exact absurd h hlo
        · exact h
      have hnw : ∀ w ∈ s.worktrees, w.branch ≠ src := fun w hw hb =>
        hco (checked_of_foundInWorktree ⟨w, hw, hb, hsw w hw hb⟩)
      have h1 := check_branch_absent_ok s src hnw hlo (hsn hco)
      have hcp := cp_op_remote_eq s src dst hco hlo hre h1 h2
      obtain ⟨f1, f2, f3, f4, f5, f6⟩ := fetch_branch_obs s src dst
      obtain ⟨m0, m1, m2, m3, m4, m5, m6⟩ := cp_finish_rm_post s
        (fetch_branch s src dst) src dst hne hctl f1 f2 f3 f4 f5 f6 hdw
        (fun h => absurd h hco)
      obtain ⟨r1, r2, r3, r4⟩ := roundtrip_conclusions s _ dst hdw hdh hdd
        hdg m1 m2 m3 m4
      exact ⟨_, hcp, r1, r2, r3, r4, m5, m6⟩

/-- C6 witness: the checked-out, consistent `a` of `exClean` copied to the
absent `b` and then removed: every `b` namespace is restored and `a` stays
checked out. -/
theorem cp_rm_roundtrip_witness :
    ∃ t, cp_op exClean "a" "b" = .ok t ∧
      (convPath exClean "b" ∈ (rm_op t "b").1.dirs ↔
        convPath exClean "b" ∈ exClean.dirs) ∧
      (convPath exClean "b" ∈ (rm_op t "b").1.gitDirs ↔
        convPath exClean "b" ∈ exClean.gitDirs) ∧
      ((∃ w ∈ (rm_op t "b").1.worktrees, w.branch = "b") ↔
        (∃ w ∈ exClean.worktrees, w.branch = "b")) ∧
      (("b" ∈ (rm_op t "b").1.heads.map Prod.fst) ↔
        ("b" ∈ exClean.heads.map Prod.fst)) ∧
      (rm_op t "b").1.remoteRefs = exClean.remoteRefs ∧
      branch_state (rm_op t "b").1 "a" = branch_state exClean "a" :=
  cp_rm_roundtrip exClean "a" "b" (by decide) (by decide) (by decide)
    (by decide) (by decide) (by decide) (by decide) (by decide)
    (fun _ => by decide) (fun h => absurd (by decide) h) (Or.inl (by decide))

end Expmonkey
